import Mathlib

/-!
Verification of the two slot-machine utilities of this repository:
the winning-combination detector (`src/Winning Combinations/src/winning-combinations.ts`)
and the reel-stop cadence generator (`src/Cadence/SlotMachineCadence.ts`).

Symbols are JavaScript numbers restricted to integer codes; we embed them as `Int`.
Cadence values mix integers and `0.25`; we embed them as `ℚ` (all values arising are
exact multiples of `0.25`, which IEEE doubles of this magnitude represent exactly,
so the rational embedding is faithful).
Positions and column indices are `ℕ`.
-/

namespace WinningCombinations

/-- Field `minSequenceLength` of the `config` constant of
`winning-combinations.ts`: minimum run length. -/
def minSequenceLength : ℕ := 3

/-- Field `wildSymbol` of the `config` constant: the wild symbol code. -/
def wildSymbol : Int := 0

/-- Field `payingSymbols` of the `config` constant: the paying symbol codes. -/
def payingSymbols : List Int := [1, 2, 3, 4, 5, 6, 7, 8, 9]

/-- Field `nonPayingSymbols` of the `config` constant: the non-paying symbol codes. -/
def nonPayingSymbols : List Int := [10, 11, 12, 13, 14, 15]

/-- The list `allSymbols` as built inside `validateSymbols`:
`[wildSymbol, ...payingSymbols, ...nonPayingSymbols]`. -/
def allSymbols : List Int := wildSymbol :: (payingSymbols ++ nonPayingSymbols)

/-- Function `isElegibleSymbol` of the source: paying and not the wild symbol. -/
def isElegibleSymbol (symbol : Int) : Bool :=
  let isPayingSymbols := payingSymbols.contains symbol
  let isWildSymbol := symbol == wildSymbol
  !isWildSymbol && isPayingSymbols

/-- Function `buildAllWildWinningCombinationsResult` of the source: the single
combination `[wildSymbol, [0, 1, ..., columnsCount-1]]`. -/
def buildAllWildWinningCombinationsResult (columnsCount : ℕ) : List (Int × List ℕ) :=
  [(wildSymbol, List.range columnsCount)]

/-- Function `replaceWildToSymbolInLine` of the source: map every wild position
to `symbol`, leaving other positions unchanged. -/
def replaceWildToSymbolInLine (lineSymbols : List Int) (symbol : Int) : List Int :=
  lineSymbols.map (fun symbolToReplace =>
    if symbolToReplace ≠ wildSymbol then symbolToReplace else symbol)

/-- JavaScript's `line[index - 1]`: `undefined` (here `none`) at index `0`,
otherwise the optional lookup at `index - 1`. -/
def jsPrev (line : List Int) (index : ℕ) : Option Int :=
  if index = 0 then none else line.get? (index - 1)

/-- JavaScript's `acc[acc.length - 1].push(index)`: append `i` to the last
group of the accumulator (no-op on an empty accumulator, a branch the source
never reaches). -/
def appendToLast : List (List ℕ) → ℕ → List (List ℕ)
  | [], _ => []
  | [l], i => [l ++ [i]]
  | l :: rest, i => l :: appendToLast rest i

/-- One step of the `reduce` inside `buildSymbolSequences`:
`p` is the `(index, currentSymbol)` pair provided by the reduce. -/
def buildStep (line : List Int) (symbol : Int) (acc : List (List ℕ)) (p : ℕ × Int) :
    List (List ℕ) :=
  if p.2 = symbol then
    if acc.length = 0 ∨ jsPrev line p.1 ≠ some symbol then acc ++ [[p.1]]
    else appendToLast acc p.1
  else acc

/-- Function `buildSymbolSequences` of the source: the `reduce` over the line
with indices, grouping the positions equal to `symbol` into contiguous index
groups. -/
def buildSymbolSequences (line : List Int) (symbol : Int) : List (List ℕ) :=
  line.enum.foldl (buildStep line symbol) []

/-- Function `findPaylinePositions` of the source: the first group of length
at least `minSequenceLength`, if any. -/
def findPaylinePositions (sequences : List (List ℕ)) : Option (List ℕ) :=
  sequences.find? (fun sequence => minSequenceLength ≤ sequence.length)

/-- Function `validateSymbols` of the source as a boolean: every symbol belongs
to `allSymbols` (the source throws `InvalidSymbolError` exactly when this is
false). -/
def validateSymbols (symbols : List Int) : Bool :=
  symbols.all (fun symbol => allSymbols.contains symbol)

/-- The only error the module can raise: `InvalidSymbolError`. -/
inductive CombError where
  | invalidSymbol
  deriving DecidableEq

/-- JavaScript's `[...new Set(line)]`: a `Set` preserves insertion order, so
this is the list of distinct symbols in order of first appearance. -/
def uniqueSymbols (line : List Int) : List Int :=
  line.foldl (fun acc s => if acc.contains s then acc else acc ++ [s]) []

/-- One step of the `forEach`/push loop in `call`: skip ineligible symbols,
otherwise substitute wilds, build the groups and record the first qualifying
group, if any. -/
def callStep (line : List Int) (res : List (Int × List ℕ)) (symbol : Int) :
    List (Int × List ℕ) :=
  if !isElegibleSymbol symbol then res
  else
    let lineWithReplacedWilds := replaceWildToSymbolInLine line symbol
    let symbolSequences := buildSymbolSequences lineWithReplacedWilds symbol
    match findPaylinePositions symbolSequences with
    | some paylinePositions => res ++ [(symbol, paylinePositions)]
    | none => res

/-- Function `WinningCombinations.call` of the source. A thrown
`InvalidSymbolError` is embedded as `Except.error`, so a failing call returns
no (partial) combination list. -/
def call (line : List Int) : Except CombError (List (Int × List ℕ)) :=
  let uniques := uniqueSymbols line
  if validateSymbols uniques then
    if uniques.length == 1 && uniques.get? 0 == some wildSymbol then
      Except.ok (buildAllWildWinningCombinationsResult line.length)
    else Except.ok (uniques.foldl (callStep line) [])
  else Except.error CombError.invalidSymbol

/-- The closed form of an accumulator group: nothing if the group is empty.
Proof-side helper. -/
def closeRun (cur : List ℕ) : List (List ℕ) := if cur = [] then [] else [cur]

/-- Clean recursion computing the same groups as `buildSymbolSequences`:
`cur` is the currently open group, `n` the position of the head of `l` in the
full line. Proof-side helper. -/
def cleanRuns (symbol : Int) : List Int → ℕ → List ℕ → List (List ℕ)
  | [], _, cur => closeRun cur
  | c :: rest, n, cur =>
    if c = symbol then cleanRuns symbol rest (n + 1) (cur ++ [n])
    else closeRun cur ++ cleanRuns symbol rest (n + 1) []

/-- Predicate: `range' a k` is a maximal run for `s` in `l`: nonempty, in
bounds, every position holds `s`, and the run extends in neither direction. -/
def isMaxRunAt (l : List Int) (s : Int) (a k : ℕ) : Prop :=
  0 < k ∧ a + k ≤ l.length ∧ (∀ j, j < k → l.get? (a + j) = some s) ∧
    (a = 0 ∨ l.get? (a - 1) ≠ some s) ∧ l.get? (a + k) ≠ some s

instance isMaxRunAt.dec (l : List Int) (s : Int) (a k : ℕ) :
    Decidable (isMaxRunAt l s a k) := by
  unfold isMaxRunAt
  infer_instance

/-- The combination `call` records for one distinct symbol, if any:
`callStep` appends exactly these. Proof-side helper. -/
def symbolResult (line : List Int) (symbol : Int) : Option (Int × List ℕ) :=
  if isElegibleSymbol symbol then
    (findPaylinePositions
        (buildSymbolSequences (replaceWildToSymbolInLine line symbol) symbol)).map
      (fun ps => (symbol, ps))
  else none

/-- Predicate: the line has a maximal run for `s` of qualifying length. -/
def hasQualifyingRun (l : List Int) (s : Int) : Prop :=
  ∃ a k, minSequenceLength ≤ k ∧ isMaxRunAt l s a k

instance hasQualifyingRun.dec (l : List Int) (s : Int) : Decidable (hasQualifyingRun l s) :=
  decidable_of_iff
    (∃ a, a < l.length ∧ ∃ k, k < l.length + 1 ∧ minSequenceLength ≤ k ∧ isMaxRunAt l s a k)
    (by
      constructor
      · rintro ⟨a, _, k, _, hk, hmax⟩
        exact ⟨a, k, hk, hmax⟩
      · rintro ⟨a, k, hk, hmax⟩
        have h1 := hmax.1
        have h2 := hmax.2.1
        exact ⟨a, by omega, k, by omega, hk, hmax⟩)

/-- Helper for `distinctInOrder`, carrying the symbols already seen. -/
def distinctInOrderAux (seen : List Int) : List Int → List Int
  | [] => []
  | s :: rest =>
    if seen.contains s then distinctInOrderAux seen rest
    else s :: distinctInOrderAux (s :: seen) rest

/-- The distinct symbols of the payline in order of first appearance
(the spec's step 1), written as a plain recursion. -/
def distinctInOrder (line : List Int) : List Int := distinctInOrderAux [] line

end WinningCombinations

namespace Cadence

/-- Structure `SlotCoordinate`: a (column, row) pair. JavaScript numbers; the
code only ever compares `column` for equality with a column index, so integer
columns embed it faithfully (and let us speak about negative, out-of-range
columns). -/
structure SlotCoordinate where
  column : Int
  row : Int
  deriving DecidableEq

/-- Structure `SpecialSymbol`: the special-symbol coordinate list of one round. -/
structure SpecialSymbol where
  specialSymbols : List SlotCoordinate
  deriving DecidableEq

/-- Structure `RoundsSymbols`: the three game rounds. -/
structure RoundsSymbols where
  roundOne : SpecialSymbol
  roundTwo : SpecialSymbol
  roundThree : SpecialSymbol
  deriving DecidableEq

/-- Structure `RoundsCadences`: one cadence array per round. -/
structure RoundsCadences where
  roundOne : List ℚ
  roundTwo : List ℚ
  roundThree : List ℚ
  deriving DecidableEq

/-- Field `columnSize` of the `anticipatorConfig` constant. -/
def columnSize : ℕ := 5

/-- Field `minToAnticipate` of the `anticipatorConfig` constant. -/
def minToAnticipate : ℕ := 2

/-- Field `maxToAnticipate` of the `anticipatorConfig` constant. -/
def maxToAnticipate : ℕ := 3

/-- Field `anticipateCadence` of the `anticipatorConfig` constant. -/
def anticipateCadence : ℚ := 2

/-- Field `defaultCadence` of the `anticipatorConfig` constant. -/
def defaultCadence : ℚ := 1/4

/-- The `gameRounds` constant of the source. -/
def gameRounds : RoundsSymbols :=
  RoundsSymbols.mk
    (SpecialSymbol.mk [SlotCoordinate.mk 0 2, SlotCoordinate.mk 1 3, SlotCoordinate.mk 3 4])
    (SpecialSymbol.mk [SlotCoordinate.mk 0 2, SlotCoordinate.mk 0 3])
    (SpecialSymbol.mk [SlotCoordinate.mk 4 2, SlotCoordinate.mk 4 3])

/-- Function `calculateCumulativeSymbolCountsPerColumn` of the source: the
`forEachColumnIndex` loop threading `totalCount` and pushing the running total
per column. -/
def calculateCumulativeSymbolCountsPerColumn (symbols : List SlotCoordinate) : List ℕ :=
  ((List.range columnSize).foldl
    (fun (st : ℕ × List ℕ) index =>
      let symbolsColumnCount := (symbols.filter (fun symbol => symbol.column == (index : Int))).length
      let totalCount := st.1 + symbolsColumnCount
      (totalCount, st.2 ++ [totalCount]))
    (0, [])).2

/-- Function `calculateCadence` of the source. `none` embeds JavaScript
`null`; the leading `previousSymbolsCount &&` conjunct makes a zero count
non-anticipating, which the `c ≠ 0` test preserves. -/
def calculateCadence (previousCadence : Option ℚ) (previousSymbolsCount : Option ℕ) : ℚ :=
  match previousCadence with
  | none => 0
  | some pc =>
    let isAnticipating :=
      match previousSymbolsCount with
      | none => false
      | some c => !(c == 0) && decide (minToAnticipate ≤ c) && decide (c < maxToAnticipate)
    if isAnticipating then pc + anticipateCadence
    else pc + defaultCadence

/-- JavaScript's `symbolsAccumulatorPerColumn[index - 1] || null`:
`undefined` out of range, and a falsy `0` count also collapses to `null`. -/
def jsOrNull (x : Option ℕ) : Option ℕ :=
  match x with
  | none => none
  | some v => if v = 0 then none else some v

/-- Function `calculateSlotCadence` of the source: the `forEachColumnIndex`
loop threading `previousCadence` and pushing each column's cadence. -/
def calculateSlotCadence (symbols : List SlotCoordinate) : List ℚ :=
  let symbolsAccumulatorPerColumn := calculateCumulativeSymbolCountsPerColumn symbols
  ((List.range columnSize).foldl
    (fun (st : Option ℚ × List ℚ) index =>
      let previousSymbolsCount :=
        jsOrNull (if index = 0 then none else symbolsAccumulatorPerColumn.get? (index - 1))
      let currentCadence := calculateCadence st.1 previousSymbolsCount
      (some currentCadence, st.2 ++ [currentCadence]))
    (none, [])).2

/-- Function `handleCadences` of the source, with the module-level mutable
container `slotMachineCadences` (line 74 of the source) made explicit as
threaded state: the function overwrites the container's three fields in order
and returns the container itself, so the result of a call is exactly the
post-state of the shared container. -/
def handleCadences (slotMachineCadences : RoundsCadences) (rounds : RoundsSymbols) :
    RoundsCadences × RoundsCadences :=
  let s1 := RoundsCadences.mk (calculateSlotCadence rounds.roundOne.specialSymbols)
    slotMachineCadences.roundTwo slotMachineCadences.roundThree
  let s2 := RoundsCadences.mk s1.roundOne (calculateSlotCadence rounds.roundTwo.specialSymbols)
    s1.roundThree
  let s3 := RoundsCadences.mk s2.roundOne s2.roundTwo
    (calculateSlotCadence rounds.roundThree.specialSymbols)
  (s3, s3)

/-- The initial value of the `slotMachineCadences` container. -/
def initialSlotMachineCadences : RoundsCadences := RoundsCadences.mk [] [] []

/-- The claim's "cumulative special-symbol count over columns `0..i-1`",
written directly from those words: the sum over `j < i` of the number of
special symbols in column `j`. -/
def cumulativeCount (symbols : List SlotCoordinate) (i : ℕ) : ℕ :=
  ((List.range i).map
    (fun j => (symbols.filter (fun symbol => symbol.column == (j : Int))).length)).sum

/-- Number of special symbols in column `j`. Proof-side helper. -/
def columnCount (symbols : List SlotCoordinate) (j : ℕ) : ℕ :=
  (symbols.filter (fun symbol => symbol.column == (j : Int))).length

/-- The cadence value of column `i` as a recurrence. Proof-side helper. -/
def cadenceAt (symbols : List SlotCoordinate) : ℕ → ℚ
  | 0 => 0
  | i + 1 => calculateCadence (some (cadenceAt symbols i))
      (jsOrNull ((calculateCumulativeSymbolCountsPerColumn symbols).get? i))

/-- The coordinates whose column is inside `0..columnSize-1`. -/
def inRangeSymbols (symbols : List SlotCoordinate) : List SlotCoordinate :=
  symbols.filter (fun symbol =>
    decide (0 ≤ symbol.column) && decide (symbol.column < (columnSize : Int)))

end Cadence

namespace WinningCombinations


theorem mem_foldl_unique (l : List Int) : ∀ (acc : List Int) (s : Int),
    s ∈ l.foldl (fun acc s => if acc.contains s then acc else acc ++ [s]) acc ↔
      s ∈ acc ∨ s ∈ l := by
  induction l with
  | nil => simp
  | cons hd tl ih =>
    intro acc s
    simp only [List.foldl_cons]
    by_cases h : acc.contains hd
    · rw [if_pos h, ih]
      constructor
      · rintro (h1 | h1)
        · exact Or.inl h1
        · exact Or.inr (List.mem_cons_of_mem hd h1)
      · rintro (h1 | h1)
        · exact Or.inl h1
        · rcases List.mem_cons.mp h1 with rfl | h1
          · exact Or.inl (List.mem_of_elem_eq_true h)
          · exact Or.inr h1
    · rw [if_neg h, ih]
      simp only [List.mem_append, List.mem_singleton, List.mem_cons]
      tauto

theorem mem_uniqueSymbols (line : List Int) (s : Int) :
    s ∈ uniqueSymbols line ↔ s ∈ line := by
  rw [uniqueSymbols, mem_foldl_unique]
  simp

theorem foldl_unique_absorb (l : List Int) : ∀ (acc : List Int),
    (∀ s ∈ l, acc.contains s) →
    l.foldl (fun acc s => if acc.contains s then acc else acc ++ [s]) acc = acc := by
  induction l with
  | nil => intro acc _; rfl
  | cons hd tl ih =>
    intro acc h
    simp only [List.foldl_cons, if_pos (h hd (List.mem_cons_self hd tl))]
    exact ih acc (fun s hs => h s (List.mem_cons_of_mem hd hs))

theorem uniqueSymbols_all_wild (line : List Int) (hne : line ≠ [])
    (hw : ∀ s ∈ line, s = wildSymbol) : uniqueSymbols line = [wildSymbol] := by
  cases line with
  | nil => exact absurd rfl hne
  | cons hd tl =>
    have hhd : hd = wildSymbol := hw hd (List.mem_cons_self hd tl)
    rw [uniqueSymbols]
    simp only [List.foldl_cons]
    rw [show (([] : List Int).contains hd) = false from rfl]
    simp only [Bool.false_eq_true, if_false, List.nil_append]
    have habs := foldl_unique_absorb tl [hd] (fun s hs => by
      rw [hw s (List.mem_cons_of_mem hd hs), hhd]
      decide)
    rw [habs, hhd]

theorem validate_unique_iff (line : List Int) :
    validateSymbols (uniqueSymbols line) = true ↔ ∀ s ∈ line, s ∈ allSymbols := by
  rw [validateSymbols, List.all_eq_true]
  constructor
  · intro h s hs
    exact List.mem_of_elem_eq_true (h s ((mem_uniqueSymbols line s).mpr hs))
  · intro h s hs
    exact List.elem_eq_true_of_mem (h s ((mem_uniqueSymbols line s).mp hs))

theorem call_invalidSymbol_iff (line : List Int) :
    call line = Except.error CombError.invalidSymbol ↔ ∃ s ∈ line, s ∉ allSymbols := by
  simp only [call]
  by_cases h : validateSymbols (uniqueSymbols line) = true
  · rw [if_pos h]
    rw [validate_unique_iff] at h
    constructor
    · intro hc
      split at hc <;> exact absurd hc (by simp)
    · rintro ⟨s, hs, hmem⟩
      exact absurd (h s hs) hmem
  · rw [if_neg h]
    simp only [true_iff, iff_true]
    rw [validate_unique_iff] at h
    push_neg at h
    exact h



theorem call_all_wild (line : List Int) (hne : line ≠ [])
    (hw : ∀ s ∈ line, s = wildSymbol) :
    call line = Except.ok [(wildSymbol, List.range line.length)] := by
  have hu := uniqueSymbols_all_wild line hne hw
  simp only [call, hu]
  rfl

theorem callStep_eq (line : List Int) (res : List (Int × List ℕ)) (symbol : Int) :
    callStep line res symbol = res ++ (symbolResult line symbol).toList := by
  rw [callStep, symbolResult]
  by_cases h : isElegibleSymbol symbol
  · simp only [h, Bool.not_true, Bool.false_eq_true, if_false, if_pos]
    cases hf : findPaylinePositions (buildSymbolSequences (replaceWildToSymbolInLine line symbol) symbol) <;> simp
  · simp only [Bool.not_eq_true] at h
    simp [h]

theorem foldl_callStep (line : List Int) (l : List Int) : ∀ (acc : List (Int × List ℕ)),
    l.foldl (callStep line) acc = acc ++ l.filterMap (symbolResult line) := by
  induction l with
  | nil => simp
  | cons hd tl ih =>
    intro acc
    rw [List.foldl_cons, callStep_eq, ih, List.filterMap_cons]
    cases h : symbolResult line hd <;> simp [h]

theorem call_ok_not_all_wild (line : List Int)
    (hval : ∀ s ∈ line, s ∈ allSymbols) (hnw : ¬ ∀ s ∈ line, s = wildSymbol) :
    call line = Except.ok ((uniqueSymbols line).filterMap (symbolResult line)) := by
  have hv : validateSymbols (uniqueSymbols line) = true := (validate_unique_iff line).mpr hval
  have hbr : ((uniqueSymbols line).length == 1 &&
      (uniqueSymbols line).get? 0 == some wildSymbol) = false := by
    by_contra hb
    rw [Bool.not_eq_false, Bool.and_eq_true, beq_iff_eq, beq_iff_eq] at hb
    obtain ⟨h1, h2⟩ := hb
    apply hnw
    intro s hs
    have hmem := (mem_uniqueSymbols line s).mpr hs
    rcases uS : uniqueSymbols line with _ | ⟨a, tl⟩
    · rw [uS] at hmem
      exact absurd hmem (List.not_mem_nil s)
    · rw [uS] at h1 h2 hmem
      simp only [List.length_cons, add_left_eq_self, List.length_eq_zero] at h1
      subst h1
      simp only [List.get?] at h2
      injection h2 with h2
      subst h2
      simpa using hmem
  simp only [call, if_pos hv, hbr, Bool.false_eq_true, if_false, foldl_callStep,
    List.nil_append]



theorem closeRun_ne (cur : List ℕ) (h : cur ≠ []) : closeRun cur = [cur] := if_neg h

theorem appendToLast_concat : ∀ (xs : List (List ℕ)) (y : List ℕ) (i : ℕ),
    appendToLast (xs ++ [y]) i = xs ++ [y ++ [i]]
  | [], _, _ => rfl
  | x :: xs, y, i => by
    cases xs with
    | nil => rfl
    | cons x2 xs2 =>
      show x :: appendToLast ((x2 :: xs2) ++ [y]) i = x :: ((x2 :: xs2) ++ [y ++ [i]])
      rw [appendToLast_concat (x2 :: xs2) y i]

theorem drop_cons_get (line : List Int) (n : ℕ) (c : Int) (rest : List Int)
    (h : line.drop n = c :: rest) : line.get? n = some c ∧ line.drop (n + 1) = rest := by
  constructor
  · have h0 : (line.drop n).get? 0 = some c := by rw [h]; rfl
    rw [List.get?_drop] at h0
    simpa using h0
  · have h1 : (line.drop n).drop 1 = rest := by rw [h]; rfl
    rw [List.drop_drop] at h1
    simpa [Nat.add_comm] using h1

theorem jsPrev_succ (line : List Int) (n : ℕ) : jsPrev line (n + 1) = line.get? n := by
  simp [jsPrev]

theorem buildStep_match_new (line : List Int) (symbol : Int) (acc : List (List ℕ)) (n : ℕ)
    (h : acc.length = 0 ∨ jsPrev line n ≠ some symbol) :
    buildStep line symbol acc (n, symbol) = acc ++ [[n]] := by
  simp only [buildStep]
  rw [if_pos trivial, if_pos h]

theorem buildStep_match_extend (line : List Int) (symbol : Int) (closed : List (List ℕ))
    (cur : List ℕ) (n : ℕ) (hprev : jsPrev line n = some symbol) :
    buildStep line symbol (closed ++ [cur]) (n, symbol) = closed ++ [cur ++ [n]] := by
  simp only [buildStep]
  rw [if_pos trivial, if_neg ?hcond, appendToLast_concat]
  case hcond =>
    rintro (h | h)
    · rw [List.length_append] at h
      simp at h
    · exact h hprev

theorem buildStep_match_skip (line : List Int) (symbol : Int) (acc : List (List ℕ))
    (n : ℕ) (c : Int) (hc : ¬ c = symbol) : buildStep line symbol acc (n, c) = acc := by
  simp only [buildStep]
  rw [if_neg hc]

theorem foldl_buildStep_eq (line : List Int) (symbol : Int) :
    ∀ (l : List Int) (n : ℕ) (closed : List (List ℕ)) (cur : List ℕ),
      line.drop n = l →
      (jsPrev line n = some symbol ↔ cur ≠ []) →
      (List.enumFrom n l).foldl (buildStep line symbol) (closed ++ closeRun cur) =
        closed ++ cleanRuns symbol l n cur := by
  intro l
  induction l with
  | nil => intro n closed cur _ _; rfl
  | cons c rest ih =>
    intro n closed cur hdrop hiff
    obtain ⟨hget, hdrop'⟩ := drop_cons_get line n c rest hdrop
    rw [show List.enumFrom n (c :: rest) = (n, c) :: List.enumFrom (n + 1) rest from rfl,
      List.foldl_cons]
    by_cases hc : c = symbol
    · subst hc
      rw [show cleanRuns c (c :: rest) n cur = cleanRuns c rest (n + 1) (cur ++ [n]) by
        rw [cleanRuns, if_pos rfl]]
      by_cases hcur : cur = []
      · subst hcur
        have hprev : jsPrev line n ≠ some c := fun hp => (hiff.mp hp) rfl
        rw [show closeRun ([] : List ℕ) = [] from rfl, List.append_nil,
          buildStep_match_new line c closed n (Or.inr hprev),
          show ([] : List ℕ) ++ [n] = [n] from rfl,
          show closed ++ [[n]] = closed ++ closeRun [n] by rw [closeRun_ne [n] (by simp)]]
        exact ih (n + 1) closed [n] hdrop' (by rw [jsPrev_succ, hget]; simp)
      · have hprev : jsPrev line n = some c := hiff.mpr hcur
        rw [closeRun_ne cur hcur, buildStep_match_extend line c closed cur n hprev,
          show closed ++ [cur ++ [n]] = closed ++ closeRun (cur ++ [n]) by
            rw [closeRun_ne (cur ++ [n]) (by simp)]]
        exact ih (n + 1) closed (cur ++ [n]) hdrop' (by rw [jsPrev_succ, hget]; simp)
    · rw [show cleanRuns symbol (c :: rest) n cur =
          closeRun cur ++ cleanRuns symbol rest (n + 1) [] by
        rw [cleanRuns, if_neg hc]]
      rw [buildStep_match_skip line symbol (closed ++ closeRun cur) n c hc]
      have := ih (n + 1) (closed ++ closeRun cur) [] hdrop'
        (by rw [jsPrev_succ, hget]; simp [hc])
      rw [show (closed ++ closeRun cur) ++ closeRun [] = closed ++ closeRun cur by
        rw [show closeRun ([] : List ℕ) = [] from rfl, List.append_nil]] at this
      rw [this, List.append_assoc]

theorem buildSymbolSequences_eq_cleanRuns (line : List Int) (symbol : Int) :
    buildSymbolSequences line symbol = cleanRuns symbol line 0 [] := by
  have h := foldl_buildStep_eq line symbol line 0 [] []
    (by rfl) (by simp [jsPrev])
  rw [show ([] : List (List ℕ)) ++ closeRun [] = [] from rfl] at h
  rw [show ([] : List (List ℕ)) ++ cleanRuns symbol line 0 [] = cleanRuns symbol line 0 [] from
    List.nil_append _] at h
  rw [buildSymbolSequences, List.enum, h]


theorem get?_some_lt {l : List Int} {n : ℕ} {a : Int} (h : l.get? n = some a) :
    n < l.length := by
  rcases List.get?_eq_some.mp h with ⟨hlt, _⟩
  exact hlt

theorem cleanRuns_sound (line : List Int) (symbol : Int) :
    ∀ (l : List Int) (n b : ℕ) (cur : List ℕ),
      line.drop n = l →
      b ≤ n →
      cur = List.range' b (n - b) →
      (∀ j, b ≤ j → j < n → line.get? j = some symbol) →
      (cur ≠ [] → (b = 0 ∨ line.get? (b - 1) ≠ some symbol)) →
      (cur = [] → b = n) →
      (cur = [] → (n = 0 ∨ line.get? (n - 1) ≠ some symbol)) →
      ∀ r ∈ cleanRuns symbol l n cur,
        ∃ a k, r = List.range' a k ∧ b ≤ a ∧ isMaxRunAt line symbol a k := by
  intro l
  induction l with
  | nil =>
    intro n b cur hdrop hb hcur hrun hleft _ _ r hr
    rw [cleanRuns] at hr
    by_cases hc : cur = []
    · rw [closeRun, if_pos hc] at hr
      exact absurd hr (List.not_mem_nil r)
    · rw [closeRun_ne cur hc, List.mem_singleton] at hr
      subst hr
      have hlen : line.length ≤ n := List.drop_eq_nil_iff.mp hdrop
      have hk : n - b ≠ 0 := by
        intro h0
        rw [hcur, h0] at hc
        exact hc rfl
      have hnlen : n ≤ line.length := by
        have := get?_some_lt (hrun (n - 1) (by omega) (by omega))
        omega
      refine ⟨b, n - b, hcur, le_refl b, Nat.pos_of_ne_zero hk, by omega, ?_, hleft hc, ?_⟩
      · intro j hj
        exact hrun (b + j) (by omega) (by omega)
      · rw [show b + (n - b) = n by omega, List.get?_eq_none.mpr (by omega)]
        simp
  | cons c rest ih =>
    intro n b cur hdrop hb hcur hrun hleft hempty hprev r hr
    obtain ⟨hget, hdrop'⟩ := drop_cons_get line n c rest hdrop
    rw [cleanRuns] at hr
    by_cases hc : c = symbol
    · subst hc
      rw [if_pos rfl] at hr
      have hcur' : cur ++ [n] = List.range' b (n + 1 - b) := by
        by_cases hce : cur = []
        · have hbn := hempty hce
          subst hbn
          rw [hce, List.nil_append, show b + 1 - b = 1 by omega]
          rfl
        · have hk : n - b ≠ 0 := by
            intro h0
            rw [hcur, h0] at hce
            exact hce rfl
          rw [hcur, show n + 1 - b = (n - b) + 1 by omega, List.range'_1_concat,
            show b + (n - b) = n by omega]
      refine ih (n + 1) b (cur ++ [n]) hdrop' (by omega) hcur' ?_ ?_ ?_ ?_ r hr
      · intro j hbj hj
        by_cases hjn : j = n
        · rw [hjn]
          exact hget
        · exact hrun j hbj (by omega)
      · intro _
        by_cases hce : cur = []
        · have hbn := hempty hce
          subst hbn
          exact hprev hce
        · exact hleft hce
      · intro hx
        exact absurd hx (by simp)
      · intro hx
        exact absurd hx (by simp)
    · rw [if_neg hc] at hr
      rcases List.mem_append.mp hr with hmem | hmem
      · by_cases hce : cur = []
        · rw [closeRun, if_pos hce] at hmem
          exact absurd hmem (List.not_mem_nil r)
        · rw [closeRun_ne cur hce, List.mem_singleton] at hmem
          subst hmem
          have hk : n - b ≠ 0 := by
            intro h0
            rw [hcur, h0] at hce
            exact hce rfl
          have hnlen : n < line.length := get?_some_lt hget
          refine ⟨b, n - b, hcur, le_refl b, Nat.pos_of_ne_zero hk, by omega, ?_,
            hleft hce, ?_⟩
          · intro j hj
            exact hrun (b + j) (by omega) (by omega)
          · rw [show b + (n - b) = n by omega, hget]
            intro heq
            injection heq with heq
            exact hc heq
      · obtain ⟨a, k, hr', hba, hmax⟩ := ih (n + 1) (n + 1) [] hdrop' (le_refl _)
          (by rw [Nat.sub_self]; rfl) (fun j h1 h2 => absurd h1 (by omega))
          (fun hx => absurd rfl hx) (fun _ => rfl)
          (fun _ => Or.inr (by
            rw [show n + 1 - 1 = n from rfl, hget]
            intro heq
            injection heq with heq
            exact hc heq)) r hmem
        exact ⟨a, k, hr', by omega, hmax⟩


theorem cleanRuns_complete (line : List Int) (symbol : Int) :
    ∀ (l : List Int) (n b : ℕ) (cur : List ℕ),
      line.drop n = l →
      b ≤ n →
      cur = List.range' b (n - b) →
      (∀ j, b ≤ j → j < n → line.get? j = some symbol) →
      (cur ≠ [] → (b = 0 ∨ line.get? (b - 1) ≠ some symbol)) →
      (cur = [] → b = n) →
      (cur = [] → (n = 0 ∨ line.get? (n - 1) ≠ some symbol)) →
      ∀ a k, isMaxRunAt line symbol a k → b ≤ a →
        List.range' a k ∈ cleanRuns symbol l n cur := by
  intro l
  induction l with
  | nil =>
    intro n b cur hdrop hb hcur hrun hleft hempty _ a k hmax hba
    obtain ⟨hk, hbound, hpos, hlb, hrb⟩ := hmax
    have hlen : line.length ≤ n := List.drop_eq_nil_iff.mp hdrop
    by_cases hce : cur = []
    · have hbn := hempty hce
      omega
    · have hkb : n - b ≠ 0 := by
        intro h0
        rw [hcur, h0] at hce
        exact hce rfl
      have han : a < n := by omega
      have hab : a = b := by
        by_contra hne
        have ha0 : a ≠ 0 := by omega
        rcases hlb with h0 | hns
        · exact ha0 h0
        · exact hns (hrun (a - 1) (by omega) (by omega))
      have hakn : a + k = n := by
        by_contra hne
        exact hrb (hrun (a + k) (by omega) (by omega))
      rw [cleanRuns, closeRun_ne cur hce, List.mem_singleton, hcur, hab,
        show n - b = k by omega]
  | cons c rest ih =>
    intro n b cur hdrop hb hcur hrun hleft hempty hprev a k hmax hba
    obtain ⟨hget, hdrop'⟩ := drop_cons_get line n c rest hdrop
    rw [cleanRuns]
    by_cases hc : c = symbol
    · subst hc
      rw [if_pos rfl]
      have hcur' : cur ++ [n] = List.range' b (n + 1 - b) := by
        by_cases hce : cur = []
        · have hbn := hempty hce
          subst hbn
          rw [hce, List.nil_append, show b + 1 - b = 1 by omega]
          rfl
        · have hk : n - b ≠ 0 := by
            intro h0
            rw [hcur, h0] at hce
            exact hce rfl
          rw [hcur, show n + 1 - b = (n - b) + 1 by omega, List.range'_1_concat,
            show b + (n - b) = n by omega]
      refine ih (n + 1) b (cur ++ [n]) hdrop' (by omega) hcur' ?_ ?_ ?_ ?_ a k hmax hba
      · intro j hbj hj
        by_cases hjn : j = n
        · rw [hjn]
          exact hget
        · exact hrun j hbj (by omega)
      · intro _
        by_cases hce : cur = []
        · have hbn := hempty hce
          subst hbn
          exact hprev hce
        · exact hleft hce
      · intro hx
        exact absurd hx (by simp)
      · intro hx
        exact absurd hx (by simp)
    · rw [if_neg hc]
      obtain ⟨hk, hbound, hpos, hlb, hrb⟩ := hmax
      by_cases han : a ≤ n
      · have hakn : a + k ≤ n := by
          by_contra hgt
          have hn : line.get? n = some symbol := by
            have := hpos (n - a) (by omega)
            rw [show a + (n - a) = n by omega] at this
            exact this
          rw [hget] at hn
          injection hn with hn
          exact hc hn
        have hce : cur ≠ [] := by
          intro hce
          have hbn := hempty hce
          omega
        have hkb : n - b ≠ 0 := by
          intro h0
          rw [hcur, h0] at hce
          exact hce rfl
        have hab : a = b := by
          by_contra hne
          have ha0 : a ≠ 0 := by omega
          rcases hlb with h0 | hns
          · exact ha0 h0
          · exact hns (hrun (a - 1) (by omega) (by omega))
        have hakn' : a + k = n := by
          by_contra hne
          exact hrb (hrun (a + k) (by omega) (by omega))
        apply List.mem_append_left
        rw [closeRun_ne cur hce, List.mem_singleton, hcur, hab, show n - b = k by omega]
      · apply List.mem_append_right
        refine ih (n + 1) (n + 1) [] hdrop' (le_refl _) (by rw [Nat.sub_self]; rfl)
          (fun j h1 h2 => absurd h1 (by omega)) (fun hx => absurd rfl hx) (fun _ => rfl)
          (fun _ => Or.inr (by
            rw [show n + 1 - 1 = n from rfl, hget]
            intro heq
            injection heq with heq
            exact hc heq)) a k ⟨hk, hbound, hpos, hlb, hrb⟩ (by omega)

theorem cleanRuns_pairwise (line : List Int) (symbol : Int) :
    ∀ (l : List Int) (n b : ℕ) (cur : List ℕ),
      line.drop n = l →
      b ≤ n →
      cur = List.range' b (n - b) →
      (∀ j, b ≤ j → j < n → line.get? j = some symbol) →
      (cur ≠ [] → (b = 0 ∨ line.get? (b - 1) ≠ some symbol)) →
      (cur = [] → b = n) →
      (cur = [] → (n = 0 ∨ line.get? (n - 1) ≠ some symbol)) →
      (cleanRuns symbol l n cur).Pairwise
        (fun r1 r2 => ∀ a1 ∈ r1.head?, ∀ a2 ∈ r2.head?, a1 < a2) := by
  intro l
  induction l with
  | nil =>
    intro n b cur _ _ _ _ _ _ _
    rw [cleanRuns, closeRun]
    split
    · exact List.Pairwise.nil
    · exact List.pairwise_singleton _ _
  | cons c rest ih =>
    intro n b cur hdrop hb hcur hrun hleft hempty hprev
    obtain ⟨hget, hdrop'⟩ := drop_cons_get line n c rest hdrop
    rw [cleanRuns]
    by_cases hc : c = symbol
    · subst hc
      rw [if_pos rfl]
      have hcur' : cur ++ [n] = List.range' b (n + 1 - b) := by
        by_cases hce : cur = []
        · have hbn := hempty hce
          subst hbn
          rw [hce, List.nil_append, show b + 1 - b = 1 by omega]
          rfl
        · have hk : n - b ≠ 0 := by
            intro h0
            rw [hcur, h0] at hce
            exact hce rfl
          rw [hcur, show n + 1 - b = (n - b) + 1 by omega, List.range'_1_concat,
            show b + (n - b) = n by omega]
      refine ih (n + 1) b (cur ++ [n]) hdrop' (by omega) hcur' ?_ ?_ ?_ ?_
      · intro j hbj hj
        by_cases hjn : j = n
        · rw [hjn]
          exact hget
        · exact hrun j hbj (by omega)
      · intro _
        by_cases hce : cur = []
        · have hbn := hempty hce
          subst hbn
          exact hprev hce
        · exact hleft hce
      · intro hx
        exact absurd hx (by simp)
      · intro hx
        exact absurd hx (by simp)
    · rw [if_neg hc]
      have hrest := ih (n + 1) (n + 1) [] hdrop' (le_refl _) (by rw [Nat.sub_self]; rfl)
        (fun j h1 h2 => absurd h1 (by omega)) (fun hx => absurd rfl hx) (fun _ => rfl)
        (fun _ => Or.inr (by
          rw [show n + 1 - 1 = n from rfl, hget]
          intro heq
          injection heq with heq
          exact hc heq))
      rw [List.pairwise_append]
      refine ⟨?_, hrest, ?_⟩
      · rw [closeRun]
        split
        · exact List.Pairwise.nil
        · exact List.pairwise_singleton _ _
      · intro r1 hr1 r2 hr2 a1 ha1 a2 ha2
        obtain ⟨a, k, hr2', hba2, hmax2⟩ := cleanRuns_sound line symbol rest (n + 1) (n + 1) []
          hdrop' (le_refl _) (by rw [Nat.sub_self]; rfl)
          (fun j h1 h2 => absurd h1 (by omega)) (fun hx => absurd rfl hx) (fun _ => rfl)
          (fun _ => Or.inr (by
            rw [show n + 1 - 1 = n from rfl, hget]
            intro heq
            injection heq with heq
            exact hc heq)) r2 hr2
        by_cases hce : cur = []
        · rw [closeRun, if_pos hce] at hr1
          exact absurd hr1 (List.not_mem_nil r1)
        · rw [closeRun_ne cur hce, List.mem_singleton] at hr1
          subst hr1
          have hkb : n - b ≠ 0 := by
            intro h0
            rw [hcur, h0] at hce
            exact hce rfl
          have hhd : r1.head? = some b := by
            rw [hcur, List.head?_range', if_neg hkb]
          rw [hhd, Option.mem_def] at ha1
          injection ha1 with ha1
          have hk2 : k ≠ 0 := by
            have := hmax2.1
            omega
          have hhd2 : r2.head? = some a := by
            rw [hr2', List.head?_range', if_neg hk2]
          rw [hhd2, Option.mem_def] at ha2
          injection ha2 with ha2
          omega

theorem find?_first {α : Type} (p : α → Bool) (R : α → α → Prop) :
    ∀ (L : List α) (r : α), L.Pairwise R → L.find? p = some r →
      ∀ x ∈ L, p x = true → x = r ∨ R r x := by
  intro L
  induction L with
  | nil =>
    intro r _ h
    exact absurd h (by simp)
  | cons hd tl ih =>
    intro r hpw hfind x hx hpx
    rcases List.pairwise_cons.mp hpw with ⟨hhd, htl⟩
    cases hph : p hd
    · rw [List.find?_cons_of_neg _ (by rw [hph]; simp)] at hfind
      rcases List.mem_cons.mp hx with rfl | hx'
      · rw [hpx] at hph
        exact absurd hph (by simp)
      · exact ih r htl hfind x hx' hpx
    · rw [List.find?_cons_of_pos _ hph] at hfind
      injection hfind with hfind
      subst hfind
      rcases List.mem_cons.mp hx with rfl | hx'
      · exact Or.inl rfl
      · exact Or.inr (hhd x hx')

theorem mem_buildSymbolSequences (line : List Int) (symbol : Int) (r : List ℕ) :
    r ∈ buildSymbolSequences line symbol ↔
      ∃ a k, r = List.range' a k ∧ isMaxRunAt line symbol a k := by
  rw [buildSymbolSequences_eq_cleanRuns]
  constructor
  · intro hr
    obtain ⟨a, k, h1, _, h3⟩ := cleanRuns_sound line symbol line 0 0 [] rfl (le_refl 0) rfl
      (fun j h1 h2 => absurd h2 (Nat.not_lt_zero j)) (fun h => absurd rfl h) (fun _ => rfl)
      (fun _ => Or.inl rfl) r hr
    exact ⟨a, k, h1, h3⟩
  · rintro ⟨a, k, rfl, hmax⟩
    exact cleanRuns_complete line symbol line 0 0 [] rfl (le_refl 0) rfl
      (fun j h1 h2 => absurd h2 (Nat.not_lt_zero j)) (fun h => absurd rfl h) (fun _ => rfl)
      (fun _ => Or.inl rfl) a k hmax (Nat.zero_le a)

theorem buildSymbolSequences_pairwise (line : List Int) (symbol : Int) :
    (buildSymbolSequences line symbol).Pairwise
      (fun r1 r2 => ∀ a1 ∈ r1.head?, ∀ a2 ∈ r2.head?, a1 < a2) := by
  rw [buildSymbolSequences_eq_cleanRuns]
  exact cleanRuns_pairwise line symbol line 0 0 [] rfl (le_refl 0) rfl
    (fun j h1 h2 => absurd h2 (Nat.not_lt_zero j)) (fun h => absurd rfl h) (fun _ => rfl)
    (fun _ => Or.inl rfl)

theorem findPaylinePositions_some (line : List Int) (symbol : Int) (r : List ℕ)
    (h : findPaylinePositions (buildSymbolSequences line symbol) = some r) :
    ∃ a k, r = List.range' a k ∧ minSequenceLength ≤ k ∧ isMaxRunAt line symbol a k ∧
      ∀ a2 k2, minSequenceLength ≤ k2 → isMaxRunAt line symbol a2 k2 → a ≤ a2 := by
  rw [findPaylinePositions] at h
  have hmem : r ∈ buildSymbolSequences line symbol := List.mem_of_find?_eq_some h
  have hlen0 := List.find?_some h
  simp only [decide_eq_true_eq] at hlen0
  have hlen : minSequenceLength ≤ r.length := hlen0
  have hmin : 0 < minSequenceLength := by decide
  obtain ⟨a, k, rfl, hmax⟩ := (mem_buildSymbolSequences line symbol r).mp hmem
  rw [List.length_range'] at hlen
  refine ⟨a, k, rfl, hlen, hmax, ?_⟩
  intro a2 k2 hk2 hmax2
  have hmem2 : List.range' a2 k2 ∈ buildSymbolSequences line symbol :=
    (mem_buildSymbolSequences line symbol _).mpr ⟨a2, k2, rfl, hmax2⟩
  have hp2 : (fun sequence => decide (minSequenceLength ≤ sequence.length))
      (List.range' a2 k2) = true := by
    simp only [List.length_range', decide_eq_true_eq]
    exact hk2
  rcases find?_first _ _ (buildSymbolSequences line symbol) _
      (buildSymbolSequences_pairwise line symbol) h _ hmem2 hp2 with heq | hlt
  · rcases (List.range'_inj.mp heq) with ⟨hkk, h0 | haa⟩
    · omega
    · omega
  · have hk0 : k ≠ 0 := by omega
    have hk20 : k2 ≠ 0 := by omega
    have h1 := hlt a (by rw [List.head?_range', if_neg hk0]; rfl)
      a2 (by rw [List.head?_range', if_neg hk20]; rfl)
    omega

theorem findPaylinePositions_none (line : List Int) (symbol : Int)
    (h : findPaylinePositions (buildSymbolSequences line symbol) = none) :
    ∀ a k, minSequenceLength ≤ k → ¬ isMaxRunAt line symbol a k := by
  intro a k hk hmax
  have hmem : List.range' a k ∈ buildSymbolSequences line symbol :=
    (mem_buildSymbolSequences line symbol _).mpr ⟨a, k, rfl, hmax⟩
  rw [findPaylinePositions] at h
  have := List.find?_eq_none.mp h _ hmem
  apply this
  rw [List.length_range']
  exact decide_eq_true hk

/-- Positions of the substituted line, looked at through the original line:
a substituted position holds `symbol` exactly when the original holds
`symbol` or the wild. -/
theorem replaceWild_get (line : List Int) (symbol : Int) (i : ℕ)
    (h : (replaceWildToSymbolInLine line symbol).get? i = some symbol) :
    line.get? i = some symbol ∨ line.get? i = some wildSymbol := by
  rw [replaceWildToSymbolInLine, List.get?_map] at h
  cases hv : line.get? i with
  | none =>
    rw [hv] at h
    exact absurd h (by simp)
  | some v =>
    rw [hv] at h
    simp only [Option.map_some'] at h
    injection h with h
    by_cases hw : v = wildSymbol
    · right
      rw [hw]
    · left
      rw [if_pos hw] at h
      rw [h]

theorem replaceWild_length (line : List Int) (symbol : Int) :
    (replaceWildToSymbolInLine line symbol).length = line.length := by
  rw [replaceWildToSymbolInLine, List.length_map]

theorem contains_eq_of_mem_iff {acc seen : List Int} (h : ∀ x, x ∈ acc ↔ x ∈ seen)
    (s : Int) : acc.contains s = seen.contains s := by
  cases hc : seen.contains s
  · cases hc2 : acc.contains s
    · rfl
    · have := List.elem_eq_true_of_mem ((h s).mp (List.mem_of_elem_eq_true hc2))
      rw [List.contains] at hc
      rw [hc] at this
      exact absurd this (by simp)
  · exact List.elem_eq_true_of_mem ((h s).mpr (List.mem_of_elem_eq_true hc))

theorem foldl_unique_eq_distinctAux (l : List Int) : ∀ (acc seen : List Int),
    (∀ x, x ∈ acc ↔ x ∈ seen) →
    l.foldl (fun acc s => if acc.contains s then acc else acc ++ [s]) acc =
      acc ++ distinctInOrderAux seen l := by
  induction l with
  | nil =>
    intro acc seen _
    rw [distinctInOrderAux, List.append_nil]
    rfl
  | cons hd tl ih =>
    intro acc seen hiff
    rw [List.foldl_cons, distinctInOrderAux, contains_eq_of_mem_iff hiff hd]
    cases hc : seen.contains hd
    · rw [if_neg Bool.false_ne_true, if_neg Bool.false_ne_true]
      rw [ih (acc ++ [hd]) (hd :: seen) (by
        intro x
        rw [List.mem_append, List.mem_singleton, List.mem_cons, hiff x]
        tauto)]
      rw [List.append_assoc]
      rfl
    · rw [if_pos rfl, if_pos rfl]
      exact ih acc seen hiff

theorem uniqueSymbols_eq_distinctInOrder (line : List Int) :
    uniqueSymbols line = distinctInOrder line := by
  rw [uniqueSymbols, distinctInOrder,
    foldl_unique_eq_distinctAux line [] [] (fun x => Iff.rfl), List.nil_append]

theorem symbolResult_fst (line : List Int) (s : Int) (p : Int × List ℕ)
    (h : symbolResult line s = some p) : p.1 = s := by
  rw [symbolResult] at h
  by_cases he : isElegibleSymbol s
  · rw [if_pos he] at h
    cases hf : findPaylinePositions (buildSymbolSequences (replaceWildToSymbolInLine line s) s) with
    | none =>
      rw [hf] at h
      exact absurd h (by simp)
    | some ps =>
      rw [hf] at h
      simp only [Option.map_some'] at h
      injection h with h
      rw [← h]
  · rw [if_neg he] at h
    exact absurd h (by simp)

theorem symbolResult_isSome (line : List Int) (s : Int) :
    (symbolResult line s).isSome =
      (isElegibleSymbol s &&
        decide (hasQualifyingRun (replaceWildToSymbolInLine line s) s)) := by
  rw [symbolResult]
  by_cases he : isElegibleSymbol s
  · rw [if_pos he, he]
    cases hf : findPaylinePositions (buildSymbolSequences (replaceWildToSymbolInLine line s) s) with
    | none =>
      have hnone := findPaylinePositions_none _ _ hf
      rw [Bool.true_and]
      rw [decide_eq_false (by
        rintro ⟨a, k, hk, hmax⟩
        exact hnone a k hk hmax)]
      rfl
    | some ps =>
      obtain ⟨a, k, _, hk, hmax, _⟩ := findPaylinePositions_some _ _ _ hf
      rw [Bool.true_and, decide_eq_true ⟨a, k, hk, hmax⟩]
      rfl
  · rw [if_neg he]
    rw [Bool.not_eq_true] at he
    rw [he, Bool.false_and]
    rfl

theorem map_fst_filterMap (line : List Int) : ∀ (l : List Int),
    (l.filterMap (symbolResult line)).map Prod.fst =
      l.filter (fun s => (symbolResult line s).isSome) := by
  intro l
  induction l with
  | nil => rfl
  | cons hd tl ih =>
    rw [List.filterMap_cons, List.filter_cons]
    cases h : symbolResult line hd with
    | none =>
      rw [Option.isSome_none, if_neg Bool.false_ne_true]
      exact ih
    | some p =>
      rw [show (some p).isSome = true from rfl, if_pos rfl]
      rw [show List.map Prod.fst
          (match some p with
          | none => List.filterMap (symbolResult line) tl
          | some b => b :: List.filterMap (symbolResult line) tl) =
        p.1 :: List.map Prod.fst (List.filterMap (symbolResult line) tl) from rfl]
      rw [ih, symbolResult_fst line hd p h]


end WinningCombinations

namespace Cadence


theorem cumulative_eq (symbols : List SlotCoordinate) :
    calculateCumulativeSymbolCountsPerColumn symbols =
      [0 + columnCount symbols 0,
       0 + columnCount symbols 0 + columnCount symbols 1,
       0 + columnCount symbols 0 + columnCount symbols 1 + columnCount symbols 2,
       0 + columnCount symbols 0 + columnCount symbols 1 + columnCount symbols 2 + columnCount symbols 3,
       0 + columnCount symbols 0 + columnCount symbols 1 + columnCount symbols 2 + columnCount symbols 3 + columnCount symbols 4] := rfl

theorem calculateSlotCadence_eq (symbols : List SlotCoordinate) :
    calculateSlotCadence symbols =
      [cadenceAt symbols 0, cadenceAt symbols 1, cadenceAt symbols 2,
       cadenceAt symbols 3, cadenceAt symbols 4] := rfl

theorem cumulative_get (symbols : List SlotCoordinate) (i : ℕ) (h0 : 0 < i) (h5 : i ≤ 5) :
    (calculateCumulativeSymbolCountsPerColumn symbols).get? (i - 1) =
      some (cumulativeCount symbols i) := by
  interval_cases i <;>
    simp [cumulative_eq, cumulativeCount, List.range_succ, columnCount] <;> omega

theorem calculateCadence_some (pc : ℚ) (m : ℕ) :
    calculateCadence (some pc) (jsOrNull (some m)) =
      pc + (if minToAnticipate ≤ m ∧ m < maxToAnticipate then anticipateCadence else defaultCadence) := by
  rcases Nat.eq_zero_or_pos m with h | h
  · subst h
    simp [calculateCadence, jsOrNull, minToAnticipate, maxToAnticipate]
  · have hne : m ≠ 0 := Nat.pos_iff_ne_zero.mp h
    simp only [calculateCadence, jsOrNull, hne, if_false, beq_iff_eq]
    by_cases h2 : minToAnticipate ≤ m ∧ m < maxToAnticipate
    · simp [h2, hne]
    · rw [if_neg h2]
      rcases Classical.em (minToAnticipate ≤ m) with hle | hle <;>
        simp_all [calculateCadence]

theorem le_calculateCadence (pc : ℚ) (y : Option ℕ) : pc ≤ calculateCadence (some pc) y := by
  simp only [calculateCadence]
  split <;> [simp [anticipateCadence]; simp [defaultCadence]]

theorem cadenceAt_step_le (symbols : List SlotCoordinate) (i : ℕ) :
    cadenceAt symbols i ≤ cadenceAt symbols (i + 1) := by
  simpa [cadenceAt] using le_calculateCadence (cadenceAt symbols i) _



theorem columnCount_inRange (symbols : List SlotCoordinate) (j : ℕ) (hj : j < columnSize) :
    columnCount (inRangeSymbols symbols) j = columnCount symbols j := by
  have h5 : j < 5 := hj
  simp only [columnCount, inRangeSymbols, List.filter_filter]
  congr 1
  apply List.filter_congr
  intro a _
  by_cases h : a.column = (j : Int)
  · simp [h]
    omega
  · simp [h]

theorem cumulative_inRange (symbols : List SlotCoordinate) :
    calculateCumulativeSymbolCountsPerColumn (inRangeSymbols symbols) =
      calculateCumulativeSymbolCountsPerColumn symbols := by
  rw [cumulative_eq, cumulative_eq,
    columnCount_inRange symbols 0 (by norm_num [columnSize]),
    columnCount_inRange symbols 1 (by norm_num [columnSize]),
    columnCount_inRange symbols 2 (by norm_num [columnSize]),
    columnCount_inRange symbols 3 (by norm_num [columnSize]),
    columnCount_inRange symbols 4 (by norm_num [columnSize])]




end Cadence

namespace WinningCombinations

/-- Claim C1: `call` fails with `InvalidSymbolError` if and only if some
symbol of the payline lies outside the configured universe
`{wild} ∪ paying ∪ non-paying`; in the `Except` embedding a failing call
returns the error alone, hence no partial combination list. -/
theorem claim_C1 (line : List Int) :
    call line = Except.error CombError.invalidSymbol ↔ ∃ s ∈ line, s ∉ allSymbols :=
  call_invalidSymbol_iff line

/-- Counterexample to claim C2 as stated: the empty payline is (vacuously)
composed entirely of the wild symbol, yet `call` returns the empty result,
not the single combination `(wild, [0..n-1])` (which would be `(0, [])`). -/
theorem claim_C2_counterexample :
    (∀ s ∈ ([] : List Int), s = wildSymbol) ∧
    call ([] : List Int) ≠
      Except.ok [(wildSymbol, List.range (List.length ([] : List Int)))] := by
  constructor
  · intro s hs
    exact absurd hs (List.not_mem_nil s)
  · intro h
    rw [show call ([] : List Int) = Except.ok [] from rfl] at h
    injection h with h
    exact absurd h (by simp)

/-- Claim C2 (amended: the payline must be nonempty): for every nonempty
payline composed entirely of the wild symbol, `call` returns exactly one
combination, the pair `(wild, [0, 1, ..., n-1])` where `n` is the payline
length. -/
theorem claim_C2 (line : List Int) (hne : line ≠ [])
    (hw : ∀ s ∈ line, s = wildSymbol) :
    call line = Except.ok [(wildSymbol, List.range line.length)] :=
  call_all_wild line hne hw

/-- Witness for claim C2 at the payline `[0, 0, 0, 0]`. -/
theorem claim_C2_witness :
    ([0, 0, 0, 0] : List Int) ≠ [] ∧ (∀ s ∈ ([0, 0, 0, 0] : List Int), s = wildSymbol) ∧
    call [0, 0, 0, 0] = Except.ok [(wildSymbol, List.range 4)] :=
  ⟨by decide, by decide, claim_C2 [0, 0, 0, 0] (by decide) (by decide)⟩

/-- Claim C3: for every valid payline not composed entirely of wilds, `call`
returns, in the order of first appearance of the distinct symbols, one entry
per eligible (paying, non-wild) symbol whose wild-substituted line contains a
maximal run of length at least 3; each entry carries the positions of the
leftmost such qualifying run, and a symbol with no qualifying run contributes
no entry. -/
theorem claim_C3 (line : List Int)
    (hval : ∀ s ∈ line, s ∈ allSymbols) (hnw : ¬ ∀ s ∈ line, s = wildSymbol) :
    ∃ res, call line = Except.ok res ∧
      res.map Prod.fst = (distinctInOrder line).filter
        (fun s => isElegibleSymbol s &&
          decide (hasQualifyingRun (replaceWildToSymbolInLine line s) s)) ∧
      ∀ p ∈ res, ∃ a k, p.2 = List.range' a k ∧ minSequenceLength ≤ k ∧
        isMaxRunAt (replaceWildToSymbolInLine line p.1) p.1 a k ∧
        ∀ a2 k2, minSequenceLength ≤ k2 →
          isMaxRunAt (replaceWildToSymbolInLine line p.1) p.1 a2 k2 → a ≤ a2 := by
  refine ⟨(uniqueSymbols line).filterMap (symbolResult line),
    call_ok_not_all_wild line hval hnw, ?_, ?_⟩
  · rw [map_fst_filterMap line (uniqueSymbols line), uniqueSymbols_eq_distinctInOrder]
    apply List.filter_congr
    intro s _
    exact symbolResult_isSome line s
  · intro p hp
    obtain ⟨s, _, hres⟩ := List.mem_filterMap.mp hp
    have hfst := symbolResult_fst line s p hres
    rw [symbolResult] at hres
    by_cases he : isElegibleSymbol s
    · rw [if_pos he] at hres
      cases hf : findPaylinePositions
          (buildSymbolSequences (replaceWildToSymbolInLine line s) s) with
      | none =>
        rw [hf] at hres
        exact absurd hres (by simp)
      | some ps =>
        rw [hf] at hres
        simp only [Option.map_some'] at hres
        injection hres with hres
        obtain ⟨a, k, hps, hk, hmax, hmin⟩ := findPaylinePositions_some _ _ _ hf
        refine ⟨a, k, ?_, hk, ?_, ?_⟩
        · rw [← hres]
          exact hps
        · rw [hfst]
          exact hmax
        · rw [hfst]
          exact hmin
    · rw [if_neg he] at hres
      exact absurd hres (by simp)


/-- Claim C4: for every valid payline not composed entirely of wilds, every
symbol of a returned combination is a paying symbol other than the wild, so
neither a non-paying symbol nor the wild itself ever appears as a result
entry. -/
theorem claim_C4 (line : List Int) (res : List (Int × List ℕ))
    (hok : call line = Except.ok res) (hnw : ¬ ∀ s ∈ line, s = wildSymbol) :
    ∀ p ∈ res, p.1 ∈ payingSymbols ∧ p.1 ≠ wildSymbol := by
  have hval : ∀ s ∈ line, s ∈ allSymbols := by
    by_contra hinv
    push_neg at hinv
    obtain ⟨s, hs, hmem⟩ := hinv
    rw [(call_invalidSymbol_iff line).mpr ⟨s, hs, hmem⟩] at hok
    exact Except.noConfusion hok
  rw [call_ok_not_all_wild line hval hnw] at hok
  injection hok with hok
  subst hok
  intro p hp
  obtain ⟨s, _, hres⟩ := List.mem_filterMap.mp hp
  rw [symbolResult] at hres
  by_cases he : isElegibleSymbol s
  · rw [if_pos he] at hres
    cases hf : findPaylinePositions (buildSymbolSequences (replaceWildToSymbolInLine line s) s) with
    | none => rw [hf] at hres; exact absurd hres (by simp)
    | some ps =>
      rw [hf] at hres
      rw [show (some ps).map (fun ps => (s, ps)) = some (s, ps) from rfl] at hres
      injection hres with hres
      rw [isElegibleSymbol] at he
      simp only [Bool.and_eq_true, Bool.not_eq_true', beq_eq_false_iff_ne] at he
      have hpay : payingSymbols.contains s = true := he.2
      refine ⟨?_, ?_⟩ <;> rw [← hres]
      · exact List.mem_of_elem_eq_true hpay
      · exact he.1
  · rw [if_neg he] at hres
    exact absurd hres (by simp)


/-- Claim C5: the empty payline yields the empty result, and every valid
payline shorter than the minimum sequence length yields the empty result
unless it is composed entirely of wilds, in which case the all-wild
combination is returned with no minimum-length requirement. -/
theorem claim_C5 :
    call ([] : List Int) = Except.ok [] ∧
    ∀ line : List Int, (∀ s ∈ line, s ∈ allSymbols) → line.length < minSequenceLength →
      ((line ≠ [] ∧ ∀ s ∈ line, s = wildSymbol) →
        call line = Except.ok [(wildSymbol, List.range line.length)]) ∧
      (¬(line ≠ [] ∧ ∀ s ∈ line, s = wildSymbol) → call line = Except.ok []) := by
  refine ⟨rfl, ?_⟩
  intro line hval hshort
  constructor
  · intro ⟨hne, hw⟩
    exact call_all_wild line hne hw
  · intro hnaw
    by_cases hne : line = []
    · rw [hne]
      rfl
    · have hnw : ¬ ∀ s ∈ line, s = wildSymbol := fun hw => hnaw ⟨hne, hw⟩
      rw [call_ok_not_all_wild line hval hnw]
      congr 1
      rw [List.filterMap_eq_nil_iff]
      intro s _
      rw [symbolResult]
      by_cases he : isElegibleSymbol s
      · rw [if_pos he]
        cases hf : findPaylinePositions
            (buildSymbolSequences (replaceWildToSymbolInLine line s) s) with
        | none => rfl
        | some ps =>
          obtain ⟨a, k, _, hk, hmax, _⟩ := findPaylinePositions_some _ _ _ hf
          have hbound := hmax.2.1
          rw [replaceWild_length] at hbound
          have hmin : 0 < minSequenceLength := by decide
          omega
      · rw [if_neg he]


/-- Claim C6: every combination returned by `call` carries a nonempty list of
consecutive, strictly increasing, in-bounds positions, and at each of those
positions the payline holds either the combination's symbol or the wild. -/
theorem claim_C6 (line : List Int) (res : List (Int × List ℕ))
    (hok : call line = Except.ok res) :
    ∀ p ∈ res, ∃ a k, p.2 = List.range' a k ∧ 0 < k ∧ a + k ≤ line.length ∧
      ∀ j, j < k →
        (line.get? (a + j) = some p.1 ∨ line.get? (a + j) = some wildSymbol) := by
  simp only [call] at hok
  by_cases hv : validateSymbols (uniqueSymbols line) = true
  · rw [if_pos hv] at hok
    by_cases hbr : ((uniqueSymbols line).length == 1 &&
        (uniqueSymbols line).get? 0 == some wildSymbol) = true
    · rw [if_pos hbr] at hok
      injection hok with hok
      subst hok
      intro p hp
      rw [buildAllWildWinningCombinationsResult, List.mem_singleton] at hp
      subst hp
      rw [Bool.and_eq_true, beq_iff_eq, beq_iff_eq] at hbr
      obtain ⟨h1, h2⟩ := hbr
      have hwild : ∀ s ∈ line, s = wildSymbol := by
        intro s hs
        have hmem := (mem_uniqueSymbols line s).mpr hs
        rcases uS : uniqueSymbols line with _ | ⟨a, tl⟩
        · rw [uS] at hmem
          exact absurd hmem (List.not_mem_nil s)
        · rw [uS] at h1 h2 hmem
          simp only [List.length_cons, add_left_eq_self, List.length_eq_zero] at h1
          subst h1
          simp only [List.get?] at h2
          injection h2 with h2
          subst h2
          simpa using hmem
      have hne : line ≠ [] := by
        intro h0
        rw [h0] at h1
        rw [show uniqueSymbols [] = [] from rfl] at h1
        exact absurd h1 (by simp)
      have hlen : 0 < line.length := by
        rcases List.length_pos.mpr hne with h
        exact h
      refine ⟨0, line.length, ?_, hlen, by omega, ?_⟩
      · rw [List.range_eq_range']
      · intro j hj
        right
        have hget : line.get? j = some (line.get ⟨j, by omega⟩) := List.get?_eq_get _
        have hmem : line.get ⟨j, by omega⟩ ∈ line := List.get_mem line j _
        rw [show (0 : ℕ) + j = j from by omega, hget,
          hwild (line.get ⟨j, by omega⟩) hmem]
    · rw [if_neg hbr] at hok
      injection hok with hok
      rw [foldl_callStep line (uniqueSymbols line), List.nil_append] at hok
      subst hok
      intro p hp
      obtain ⟨s, _, hres⟩ := List.mem_filterMap.mp hp
      have hfst := symbolResult_fst line s p hres
      rw [symbolResult] at hres
      by_cases he : isElegibleSymbol s
      · rw [if_pos he] at hres
        cases hf : findPaylinePositions
            (buildSymbolSequences (replaceWildToSymbolInLine line s) s) with
        | none =>
          rw [hf] at hres
          exact absurd hres (by simp)
        | some ps =>
          rw [hf] at hres
          simp only [Option.map_some'] at hres
          injection hres with hres
          obtain ⟨a, k, hps, hk, hmax, _⟩ := findPaylinePositions_some _ _ _ hf
          obtain ⟨hk0, hbound, hpos, _, _⟩ := hmax
          rw [replaceWild_length] at hbound
          refine ⟨a, k, ?_, hk0, hbound, ?_⟩
          · rw [← hres]
            exact hps
          · intro j hj
            have := replaceWild_get line s (a + j) (hpos j hj)
            rw [hfst]
            exact this
      · rw [if_neg he] at hres
        exact absurd hres (by simp)
  · rw [if_neg hv] at hok
    exact absurd hok Except.noConfusion



/-- Witness for claim C3 at the payline `[1, 0, 1, 5, 6]` (the wild at
index 1 bridges the run of symbol 1). -/
theorem claim_C3_witness :
    (∀ s ∈ ([1, 0, 1, 5, 6] : List Int), s ∈ allSymbols) ∧
    (¬ ∀ s ∈ ([1, 0, 1, 5, 6] : List Int), s = wildSymbol) ∧
    ∃ res, call [1, 0, 1, 5, 6] = Except.ok res ∧
      res.map Prod.fst = (distinctInOrder [1, 0, 1, 5, 6]).filter
        (fun s => isElegibleSymbol s &&
          decide (hasQualifyingRun (replaceWildToSymbolInLine [1, 0, 1, 5, 6] s) s)) ∧
      ∀ p ∈ res, ∃ a k, p.2 = List.range' a k ∧ minSequenceLength ≤ k ∧
        isMaxRunAt (replaceWildToSymbolInLine [1, 0, 1, 5, 6] p.1) p.1 a k ∧
        ∀ a2 k2, minSequenceLength ≤ k2 →
          isMaxRunAt (replaceWildToSymbolInLine [1, 0, 1, 5, 6] p.1) p.1 a2 k2 → a ≤ a2 :=
  ⟨by decide, by decide, claim_C3 [1, 0, 1, 5, 6] (by decide) (by decide)⟩

/-- Witness for claim C4 at the payline `[1, 1, 1, 10]`. -/
theorem claim_C4_witness :
    call [1, 1, 1, 10] = Except.ok [((1 : Int), [0, 1, 2])] ∧
    ∀ p ∈ [((1 : Int), ([0, 1, 2] : List ℕ))], p.1 ∈ payingSymbols ∧ p.1 ≠ wildSymbol :=
  ⟨rfl, claim_C4 [1, 1, 1, 10] [((1 : Int), [0, 1, 2])] rfl (by decide)⟩

/-- Witness for claim C5 at the short payline `[1, 1]`. -/
theorem claim_C5_witness :
    (∀ s ∈ ([1, 1] : List Int), s ∈ allSymbols) ∧
    ([1, 1] : List Int).length < minSequenceLength ∧
    call [1, 1] = Except.ok [] :=
  ⟨by decide, by decide, (claim_C5.2 [1, 1] (by decide) (by decide)).2 (by decide)⟩

/-- Witness for claim C6 at the payline `[2, 2, 2, 0, 2, 2]`. -/
theorem claim_C6_witness :
    call [2, 2, 2, 0, 2, 2] = Except.ok [((2 : Int), [0, 1, 2, 3, 4, 5])] ∧
    ∀ p ∈ [((2 : Int), ([0, 1, 2, 3, 4, 5] : List ℕ))],
      ∃ a k, p.2 = List.range' a k ∧ 0 < k ∧
        a + k ≤ ([2, 2, 2, 0, 2, 2] : List Int).length ∧
        ∀ j, j < k →
          (([2, 2, 2, 0, 2, 2] : List Int).get? (a + j) = some p.1 ∨
            ([2, 2, 2, 0, 2, 2] : List Int).get? (a + j) = some wildSymbol) :=
  ⟨rfl, claim_C6 [2, 2, 2, 0, 2, 2] [((2 : Int), [0, 1, 2, 3, 4, 5])] rfl⟩

end WinningCombinations

namespace Cadence

/-- Claim C7: the cadence is 0 at column 0, and at each later column it adds
`anticipateCadence` when the cumulative special-symbol count over the previous
columns lies in `[minToAnticipate, maxToAnticipate)`, and `defaultCadence`
otherwise. -/
theorem claim_C7 (symbols : List SlotCoordinate) (i : ℕ) (h0 : 0 < i) (h5 : i < columnSize) :
    (calculateSlotCadence symbols).get? 0 = some 0 ∧
    ∃ prev, (calculateSlotCadence symbols).get? (i - 1) = some prev ∧
      (calculateSlotCadence symbols).get? i =
        some (prev +
          (if minToAnticipate ≤ cumulativeCount symbols i ∧ cumulativeCount symbols i < maxToAnticipate
           then anticipateCadence else defaultCadence)) := by
  refine ⟨by simp [calculateSlotCadence_eq, cadenceAt], ?_⟩
  have h5' : i < 5 := h5
  refine ⟨cadenceAt symbols (i - 1), ?_, ?_⟩
  · interval_cases i <;> simp [calculateSlotCadence_eq]
  · interval_cases i
    · have h := cumulative_get symbols 1 (by norm_num) (by norm_num)
      norm_num at h
      simp [calculateSlotCadence_eq, cadenceAt, h, calculateCadence_some]
    · have h := cumulative_get symbols 2 (by norm_num) (by norm_num)
      norm_num at h
      simp [calculateSlotCadence_eq, cadenceAt, h, calculateCadence_some]
    · have h := cumulative_get symbols 3 (by norm_num) (by norm_num)
      norm_num at h
      simp [calculateSlotCadence_eq, cadenceAt, h, calculateCadence_some]
    · have h := cumulative_get symbols 4 (by norm_num) (by norm_num)
      norm_num at h
      simp [calculateSlotCadence_eq, cadenceAt, h, calculateCadence_some]


/-- Claim C8: for every coordinate list the cadence array has exactly one
entry per column (`columnSize` = 5) and is monotonically non-decreasing. -/
theorem claim_C8 (symbols : List SlotCoordinate) :
    (calculateSlotCadence symbols).length = columnSize ∧
    (calculateSlotCadence symbols).Sorted (· ≤ ·) := by
  have h0 := cadenceAt_step_le symbols 0
  have h1 := cadenceAt_step_le symbols 1
  have h2 := cadenceAt_step_le symbols 2
  have h3 := cadenceAt_step_le symbols 3
  refine ⟨rfl, ?_⟩
  rw [List.Sorted, ← List.chain'_iff_pairwise, calculateSlotCadence_eq]
  simp only [List.chain'_cons, List.chain'_singleton, and_true]
  exact ⟨h0, h1, h2, h3⟩


/-- Claim C9: the cadence computation is total (it is a Lean function, with
no error path in the embedding), and coordinates whose column lies outside
`0..columnSize-1` have no effect: the result equals that of the list with
them removed. -/
theorem claim_C9 (symbols : List SlotCoordinate) :
    calculateSlotCadence symbols = calculateSlotCadence (inRangeSymbols symbols) := by
  simp only [calculateSlotCadence, cumulative_inRange]


/-- Claim C10 (code evaluation): `handleCadences` does NOT produce a fresh
mapping per invocation. With the module-level `slotMachineCadences` container
threaded as state, each call returns the container itself (first two
conjuncts), and a second call with different rounds leaves the shared
container different from what the first call returned: the first caller's
mapping has been overwritten. -/
theorem claim_C10 :
    ((handleCadences initialSlotMachineCadences gameRounds).1 =
      (handleCadences initialSlotMachineCadences gameRounds).2) ∧
    ((handleCadences (handleCadences initialSlotMachineCadences gameRounds).2
        (RoundsSymbols.mk gameRounds.roundTwo gameRounds.roundOne gameRounds.roundThree)).2 ≠
      (handleCadences initialSlotMachineCadences gameRounds).1) := by
  constructor
  · rfl
  · intro h
    have h1 : (calculateSlotCadence gameRounds.roundTwo.specialSymbols).get? 1 =
        (calculateSlotCadence gameRounds.roundOne.specialSymbols).get? 1 :=
      congrArg (fun r => r.roundOne.get? 1) h
    rw [calculateSlotCadence_eq, calculateSlotCadence_eq] at h1
    simp only [List.get?] at h1
    norm_num [cadenceAt, cumulative_eq, columnCount, gameRounds, calculateCadence,
      jsOrNull, minToAnticipate, maxToAnticipate, anticipateCadence, defaultCadence,
      List.filter] at h1
    simp +decide at h1
    norm_num at h1



/-- Witness for claim C7 at the round-two coordinates (two symbols in
column 0) and column 1. -/
theorem claim_C7_witness :
    (calculateSlotCadence [SlotCoordinate.mk 0 2, SlotCoordinate.mk 0 3]).get? 0 = some 0 ∧
    ∃ prev,
      (calculateSlotCadence [SlotCoordinate.mk 0 2, SlotCoordinate.mk 0 3]).get? 0 = some prev ∧
      (calculateSlotCadence [SlotCoordinate.mk 0 2, SlotCoordinate.mk 0 3]).get? 1 =
        some (prev +
          (if minToAnticipate ≤ cumulativeCount [SlotCoordinate.mk 0 2, SlotCoordinate.mk 0 3] 1 ∧
              cumulativeCount [SlotCoordinate.mk 0 2, SlotCoordinate.mk 0 3] 1 < maxToAnticipate
           then anticipateCadence else defaultCadence)) :=
  claim_C7 [SlotCoordinate.mk 0 2, SlotCoordinate.mk 0 3] 1 (by decide) (by decide)

end Cadence
